import Mathlib

/-!
Verification of the URL-to-local-path mapping and reference-rewriting
pipeline of `kalsh_site2.py` (single-page site mirroring script).

The Python source is shallowly embedded over `List Char`:

* `urlsplitL` / `urlparseL` model CPython 3.11 `urllib.parse.urlsplit` /
  `urlparse` as used by the script (string inputs, `allow_fragments=True`):
  removal of the WHATWG-unsafe bytes tab/CR/LF, scheme extraction, netloc
  extraction with the "Invalid IPv6 URL" `ValueError` for an authority that
  contains an unmatched square bracket, fragment and query splitting, and
  the `;params` split of `urlparse`.  The `_checknetloc` NFKC check (which
  can only fire for non-ASCII authorities) and the `_check_bracketed_host`
  validation that patched 3.11.x interpreters apply when the authority
  contains a matched `[` are not modelled; every theorem below that asserts
  a successful parse does so only for bracket-free authorities, where all
  3.11 interpreters agree.
* `local_path_for_urlL` models `local_path_for_url` (source lines 65-96),
  returning the POSIX relative reference path (`rel_posix`); `Except`
  models the propagated `ValueError`.  `pathlib.Path(*parts)` dropping of
  empty and `"."` components is modelled by `partsFilter`.
* `applyPairL` / `rewriteMarkupL` model the textual rewrite stage of
  `capture_page` (source lines 307-338), including the four `re.sub`
  passes (CSP `<meta>` removal, `integrity`/`crossorigin` stripping) as
  specialised matchers with Python leftmost / greedy-backtracking
  semantics, and the injection of `rewriter_js` before `</head>`.
* `on_response` / `dom_step` model the two recording paths that fill the
  session URL map (source lines 118-155 and 242-265).

Python's `str.replace`, `str.split`, `str.find`, `str.lower` (on the ASCII
content these claims involve) and the specific regular expressions are
implemented directly; `str.replace` semantics (leftmost, non-overlapping,
with the empty-pattern boundary behaviour) is `pyReplace`.
-/

set_option maxRecDepth 20000

/-- Python `s.replace(pat, rep)`, fuel-driven so that it reduces by
structural recursion: leftmost, non-overlapping; an empty pattern inserts
`rep` at every boundary.  After a match the scan resumes past it, so each
step consumes at least one character and `fuel = s.length` (as supplied by
`pyReplace`) always suffices; the out-of-fuel branch is never reached from
`pyReplace`. -/
def pyReplaceF (pat rep : List Char) : Nat → List Char → List Char
  | _, [] => if pat = [] then rep else []
  | 0, s => s
  | fuel + 1, c :: t =>
    if pat = [] then rep ++ c :: pyReplaceF pat rep fuel t
    else if pat.isPrefixOf (c :: t) then
      rep ++ pyReplaceF pat rep fuel ((c :: t).drop pat.length)
    else c :: pyReplaceF pat rep fuel t

/-- Python `s.replace(pat, rep)` on character lists. -/
def pyReplace (pat rep s : List Char) : List Char :=
  pyReplaceF pat rep s.length s

/-- Python `pat in s` substring test. -/
def occursL (pat : List Char) : List Char → Bool
  | [] => pat.isEmpty
  | c :: t => pat.isPrefixOf (c :: t) || occursL pat t

/-- `s.split(sep)` for a single-character separator (never returns `[]`). -/
def splitOnCharL (sep : Char) : List Char → List (List Char)
  | [] => [[]]
  | c :: t =>
    if c = sep then [] :: splitOnCharL sep t
    else
      match splitOnCharL sep t with
      | [] => [[c]]
      | g :: gs => (c :: g) :: gs

/-- Split at the first occurrence of `sep`: returns the part before it and,
if `sep` occurs, the part after it (`s.split(sep, 1)`). -/
def splitFirstL (sep : Char) : List Char → List Char × Option (List Char)
  | [] => ([], none)
  | c :: t =>
    if c = sep then ([], some t)
    else
      let r := splitFirstL sep t
      (c :: r.1, r.2)

/-- `"/".join` over segments (`Path.as_posix` of the joined parts). -/
def joinSegs : List (List Char) → List Char
  | [] => []
  | [s] => s
  | s :: t :: r => s ++ '/' :: joinSegs (t :: r)

/-- `sep.join(parts)` (used to express "every separator replaced"):
concatenation with `sep` interleaved. -/
def interJoin (sep : List Char) : List (List Char) → List Char
  | [] => []
  | [x] => x
  | x :: y :: r => x ++ sep ++ interJoin sep (y :: r)

/-- ASCII lowercase of one character (`str.lower` restricted to ASCII,
which is all that scheme names and the claims' inputs exercise), written
as an explicit table. -/
def asciiLower (c : Char) : Char :=
  if c = 'A' then 'a' else
  if c = 'B' then 'b' else
  if c = 'C' then 'c' else
  if c = 'D' then 'd' else
  if c = 'E' then 'e' else
  if c = 'F' then 'f' else
  if c = 'G' then 'g' else
  if c = 'H' then 'h' else
  if c = 'I' then 'i' else
  if c = 'J' then 'j' else
  if c = 'K' then 'k' else
  if c = 'L' then 'l' else
  if c = 'M' then 'm' else
  if c = 'N' then 'n' else
  if c = 'O' then 'o' else
  if c = 'P' then 'p' else
  if c = 'Q' then 'q' else
  if c = 'R' then 'r' else
  if c = 'S' then 's' else
  if c = 'T' then 't' else
  if c = 'U' then 'u' else
  if c = 'V' then 'v' else
  if c = 'W' then 'w' else
  if c = 'X' then 'x' else
  if c = 'Y' then 'y' else
  if c = 'Z' then 'z' else
  c

def asciiLowerL (s : List Char) : List Char := s.map asciiLower

/-- Characters allowed in a URL scheme (`urllib.parse.scheme_chars`). -/
def isSchemeChar (c : Char) : Bool :=
  ('a' ≤ c && c ≤ 'z') || ('A' ≤ c && c ≤ 'Z') || ('0' ≤ c && c ≤ '9') ||
    c = '+' || c = '-' || c = '.'

def isAsciiAlpha (c : Char) : Bool :=
  ('a' ≤ c && c ≤ 'z') || ('A' ≤ c && c ≤ 'Z')

/-- `_UNSAFE_URL_BYTES_TO_REMOVE`: `urlsplit` deletes every tab, CR and LF
from the URL before parsing. -/
def removeUnsafeBytes (s : List Char) : List Char :=
  s.filter (fun c => ¬ (c = '\t' ∨ c = '\r' ∨ c = '\n'))

/-- Scheme extraction step of `urlsplit`: if the URL has a `:` at index
`i > 0`, its first character is an ASCII letter and everything before the
`:` is made of scheme characters, the scheme is split off and lowercased;
otherwise the URL is left untouched and the scheme is empty. -/
def schemeSplit (url : List Char) : List Char × List Char :=
  match url.findIdx? (· = ':') with
  | some i =>
    if 0 < i ∧ isAsciiAlpha (url.headD ' ') ∧ (url.take i).all isSchemeChar then
      (asciiLowerL (url.take i), url.drop (i + 1))
    else ([], url)
  | none => ([], url)

def isNetlocDelim (c : Char) : Bool := c = '/' || c = '?' || c = '#'

/-- The netloc `_splitnetloc` would extract (empty unless the remainder
after the scheme starts with `//`). -/
def netloc_candidate (url : List Char) : List Char :=
  let url1 := removeUnsafeBytes url
  let url2 := (schemeSplit url1).2
  if url2.take 2 = ['/', '/'] then (url2.drop 2).takeWhile (fun c => ¬ isNetlocDelim c)
  else []

/-- The condition under which `urlsplit` raises `ValueError("Invalid IPv6
URL")`: the netloc contains one bracket of a `[`/`]` pair but not the
other. -/
def bracket_bad (n : List Char) : Bool :=
  (n.contains '[' && ! n.contains ']') || (n.contains ']' && ! n.contains '[')

structure SplitResultL where
  scheme : List Char
  netloc : List Char
  path : List Char
  query : List Char
  fragment : List Char
deriving Repr, DecidableEq

/-- What remains of the URL after `_splitnetloc` (the whole remainder
when there is no `//`). -/
def rest_after_netloc (url : List Char) : List Char :=
  let url2 := (schemeSplit (removeUnsafeBytes url)).2
  if url2.take 2 = ['/', '/'] then
    (url2.drop 2).dropWhile (fun c => ¬ isNetlocDelim c)
  else url2

/-- CPython 3.11 `urlsplit(url)` (string input, `allow_fragments=True`).
`Except` carries the `ValueError` message, raised exactly when the netloc
contains an unmatched bracket. -/
def urlsplitL (url : List Char) : Except (List Char) SplitResultL :=
  if bracket_bad (netloc_candidate url) then .error "Invalid IPv6 URL".data
  else
    let (url4, fragment) := splitFirstL '#' (rest_after_netloc url)
    let (url5, query) := splitFirstL '?' url4
    .ok ⟨(schemeSplit (removeUnsafeBytes url)).1, netloc_candidate url, url5,
         query.getD [], fragment.getD []⟩

/-- Schemes for which `urlparse` separates `;params` (`uses_params`). -/
def uses_params : List (List Char) :=
  ["".data, "ftp".data, "hdl".data, "prospero".data, "http".data, "imap".data,
   "https".data, "shttp".data, "rtsp".data, "rtspu".data, "sip".data,
   "sips".data, "mms".data, "sftp".data, "tel".data]

/-- Index of the last occurrence of `c` (`s.rfind(c)` when present). -/
def lastIdxOf (c : Char) (s : List Char) : Option Nat :=
  (s.reverse.findIdx? (· = c)).map (fun j => s.length - 1 - j)

/-- `urllib.parse._splitparams`. -/
def splitparamsL (u : List Char) : List Char × List Char :=
  if u.contains '/' then
    match lastIdxOf '/' u with
    | some k =>
      match (u.drop k).findIdx? (· = ';') with
      | some j => (u.take (k + j), u.drop (k + j + 1))
      | none => (u, [])
    | none => (u, [])
  else
    match u.findIdx? (· = ';') with
    | some j => (u.take j, u.drop (j + 1))
    | none => (u.dropLast, u)  -- i = -1: url[:-1], url[0:]; unreachable under the caller's `';' in url` guard

structure ParseResultL where
  scheme : List Char
  netloc : List Char
  path : List Char
  params : List Char
  query : List Char
  fragment : List Char
deriving Repr, DecidableEq

/-- CPython 3.11 `urlparse(url)` (string input, `allow_fragments=True`). -/
def urlparseL (url : List Char) : Except (List Char) ParseResultL :=
  match urlsplitL url with
  | .error e => .error e
  | .ok s =>
    if s.scheme ∈ uses_params ∧ s.path.contains ';' then
      let (p, params) := splitparamsL s.path
      .ok ⟨s.scheme, s.netloc, p, params, s.query, s.fragment⟩
    else
      .ok ⟨s.scheme, s.netloc, s.path, [], s.query, s.fragment⟩

/-- The fixed allow-list of primary hosts (`ALLOWED_HOSTS`). -/
def ALLOWED_HOSTS : List (List Char) :=
  ["kalashnikovgroup.ru".data, "www.kalashnikovgroup.ru".data,
   "en.kalashnikovgroup.ru".data]

/-- The safe character class of the path sanitization,
`[A-Za-z0-9._/,\-]` (source line 87). -/
def SAFE_PATH_CHAR (c : Char) : Bool :=
  ('A' ≤ c && c ≤ 'Z') || ('a' ≤ c && c ≤ 'z') || ('0' ≤ c && c ≤ '9') ||
    c = '.' || c = '_' || c = '/' || c = ',' || c = '-'

/-- The safe character class used for hosts, `[A-Za-z0-9.-]`
(source line 77). -/
def SAFE_HOST_CHAR (c : Char) : Bool :=
  ('A' ≤ c && c ≤ 'Z') || ('a' ≤ c && c ≤ 'z') || ('0' ≤ c && c ≤ '9') ||
    c = '.' || c = '-'

/-- `re.sub(r"[^A-Za-z0-9._/,\-]", "_", path)`: every character outside the
safe set becomes an underscore. -/
def sanitizePath (s : List Char) : List Char :=
  s.map (fun c => if SAFE_PATH_CHAR c then c else '_')

/-- `re.sub(r"[^A-Za-z0-9.-]", "_", host)`. -/
def sanitizeHost (s : List Char) : List Char :=
  s.map (fun c => if SAFE_HOST_CHAR c then c else '_')

/-- `re.sub(r"/{2,}", "/", s)`: collapse every run of two or more path
separators into one.  A slash followed by another slash is dropped, so of
each run only the final slash is kept. -/
def collapseSlashes : List Char → List Char
  | [] => []
  | [c] => [c]
  | c :: d :: t =>
    if c = '/' ∧ d = '/' then collapseSlashes (d :: t)
    else c :: collapseSlashes (d :: t)

/-- `pathlib.Path(*parts)` drops empty components and `"."` components. -/
def partsFilter (parts : List (List Char)) : List (List Char) :=
  parts.filter (fun s => s ≠ [] ∧ s ≠ ['.'])

/-- The `["external", sanitized-host]` namespacing parts (source
lines 75-77): added only for a nonempty host outside the allow-list. -/
def rel_parts_of (parsed : ParseResultL) : List (List Char) :=
  if parsed.netloc ≠ [] ∧ parsed.netloc ∉ ALLOWED_HOSTS then
    ["external".data, sanitizeHost parsed.netloc]
  else []

/-- `path = parsed.path or "/"` (source line 79). -/
def path_default (p : List Char) : List Char :=
  if p = [] then ['/'] else p

/-- Trailing-slash normalization: `if path.endswith("/"): path += "index"`
(source lines 80-81). -/
def path_index (p : List Char) : List Char :=
  if p.getLast? = some '/' then p ++ "index".data else p

/-- Leading-separator strip: `if path.startswith("/"): path = path[1:]`
(source lines 83-84). -/
def path_strip (p : List Char) : List Char :=
  if p.headD ' ' = '/' then p.tail else p

/-- Path normalization and sanitization applied to a path component
(source lines 79-89): default `/`, append `index` after a trailing slash,
strip one leading slash, sanitize, collapse runs of slashes. -/
def safe_path_core (p : List Char) : List Char :=
  collapseSlashes (sanitizePath (path_strip (path_index (path_default p))))

def safe_path_of (parsed : ParseResultL) : List Char :=
  safe_path_core parsed.path

/-- The components of `rel_path = Path(*rel_parts, *safe_path.split('/'))`
(source line 91), after `Path`'s dropping of empty and `.` parts. -/
def rel_segs_of (parsed : ParseResultL) : List (List Char) :=
  partsFilter (rel_parts_of parsed ++ splitOnCharL '/' (safe_path_of parsed))

def isHttpScheme (s : List Char) : Bool :=
  s = "http".data || s = "https".data

/-- `local_path_for_url` (source lines 65-96), producing the POSIX
reference path `rel_posix = (Path("assets") / rel_path).as_posix()`.
`.error` models the `ValueError` propagating out of `urlparse`; `.ok none`
is the `None` return for non-http(s) schemes.  The `mkdir` side effect is
modelled separately by `local_path_for_url_io`. -/
def local_path_for_urlL (url : List Char) : Except (List Char) (Option (List Char)) :=
  match urlparseL url with
  | .error e => .error e
  | .ok parsed =>
    if ¬ isHttpScheme parsed.scheme then .ok none
    else .ok (some (joinSegs ("assets".data :: rel_segs_of parsed)))

/-- `rel_path.as_posix()` itself (the path relative to the assets
directory), `"."` for an empty `Path()`. -/
def rel_path_for_urlL (url : List Char) : Except (List Char) (Option (List Char)) :=
  match urlparseL url with
  | .error e => .error e
  | .ok parsed =>
    if ¬ isHttpScheme parsed.scheme then .ok none
    else .ok (some (if rel_segs_of parsed = [] then ['.'] else joinSegs (rel_segs_of parsed)))

/-- String-level wrapper of `local_path_for_urlL`. -/
def local_path_for_url (url : String) : Except String (Option String) :=
  match local_path_for_urlL url.data with
  | .error e => .error ⟨e⟩
  | .ok none => .ok none
  | .ok (some r) => .ok (some ⟨r⟩)

/-- String-level wrapper of `rel_path_for_urlL`. -/
def rel_path_for_url (url : String) : Except String (Option String) :=
  match rel_path_for_urlL url.data with
  | .error e => .error ⟨e⟩
  | .ok none => .ok none
  | .ok (some r) => .ok (some ⟨r⟩)

/-- The directories (as segment lists relative to the output root) that
`abs_path.parent.mkdir(parents=True, exist_ok=True)` ensures exist: every
ancestor of the parent of `assets/<rel_path>`. -/
def ancestorDirs (segs : List (List Char)) : List (List Char) :=
  (List.range segs.dropLast.length).map (fun i => joinSegs (segs.dropLast.take (i + 1)))

/-- Filesystem state visible to the mapper: the set of directories known
to exist (create-if-missing makes insertion the only effect). -/
structure FS where
  dirs : List (List Char)
deriving Repr, DecidableEq

def addDir (l : List (List Char)) (d : List Char) : List (List Char) :=
  if d ∈ l then l else d :: l

/-- `local_path_for_url` with its only side effect, the idempotent
recursive directory creation of source line 93, made explicit as a state
transformer on `FS`. -/
def local_path_for_url_io (url : String) (fs : FS) :
    Except String (Option String) × FS :=
  match urlparseL url.data with
  | .error e => (.error ⟨e⟩, fs)
  | .ok parsed =>
    if ¬ isHttpScheme parsed.scheme then (.ok none, fs)
    else
      let segs := "assets".data :: rel_segs_of parsed
      (.ok (some ⟨joinSegs segs⟩), ⟨(ancestorDirs segs).foldl addDir fs.dirs⟩)


/-- Python regex `\s` for text patterns: Unicode whitespace. -/
def pySpace (c : Char) : Bool :=
  c = ' ' || c = '\t' || c = '\n' || c = '\r' ||
  c.toNat = 11 || c.toNat = 12 ||
  (28 ≤ c.toNat && c.toNat ≤ 31) || c.toNat = 133 || c.toNat = 160 ||
  c.toNat = 0x1680 || (0x2000 ≤ c.toNat && c.toNat ≤ 0x200a) ||
  c.toNat = 0x2028 || c.toNat = 0x2029 || c.toNat = 0x202f ||
  c.toNat = 0x205f || c.toNat = 0x3000

/-- Case-insensitive prefix test against an (ASCII, lowercase) pattern,
modelling `re.IGNORECASE` literal matching on the ASCII content these
regexes use. -/
def ciStarts (pat s : List Char) : Bool :=
  asciiLowerL (s.take pat.length) == pat

/-- Case-insensitive occurrence of an (ASCII, lowercase) pattern. -/
def ciOccurs (pat s : List Char) : Bool :=
  occursL pat (asciiLowerL s)

/-- Length of the match (0 = no match) of
`<meta[^>]+http-equiv="Content-Security-Policy"[^>]*>\s*` (IGNORECASE)
at the head of `s` (source line 326).  The bracketed parts exclude `>`, so
a match exists iff the literal occurs, at offset at least one, inside the
`>`-free zone after `<meta`, and that zone is terminated by a `>`; the
match then extends to that `>` plus trailing whitespace. -/
def metaMatchLen1 (s : List Char) : Nat :=
  if ciStarts "<meta".data s then
    if ciOccurs "http-equiv=\"content-security-policy\"".data
          ((s.drop 5).takeWhile (· ≠ '>')).tail ∧
        ((s.drop 5).takeWhile (· ≠ '>')).length < (s.drop 5).length then
      5 + ((s.drop 5).takeWhile (· ≠ '>')).length + 1 +
        (((s.drop 5).drop (((s.drop 5).takeWhile (· ≠ '>')).length + 1)).takeWhile
          pySpace).length
    else 0
  else 0

/-- One greedy-backtracking alternative of the second CSP regex: try the
`content="` literal at offset `j` after `<meta`; on success return the
number of characters matched after `<meta`. -/
def meta2TryAt (rest : List Char) (j : Nat) : Option Nat :=
  if ciStarts "content=\"".data (rest.drop j) then
    let v := rest.drop (j + 9)
    let w := v.takeWhile (· ≠ '"')
    if ciOccurs "content-security-policy".data w ∧ w.length < v.length then
      let v2 := v.drop (w.length + 1)
      let x := v2.takeWhile (· ≠ '>')
      if x.length < v2.length then
        some (j + 9 + w.length + 1 + x.length + 1 +
          ((v2.drop (x.length + 1)).takeWhile pySpace).length)
      else none
    else none
  else none

/-- Length of the match (0 = no match) of
`<meta[^>]+content="[^"]*Content-Security-Policy[^"]*"[^>]*>\s*`
(IGNORECASE) at the head of `s` (source line 327).  `[^>]+` is greedy, so
the offsets of `content="` inside the `>`-free zone are tried longest
first; the quoted part cannot cross a `"`, and the closing `>` is the
first one after the closing quote. -/
def metaMatchLen2 (s : List Char) : Nat :=
  if ciStarts "<meta".data s then
    let rest := s.drop 5
    let u := rest.takeWhile (· ≠ '>')
    match ((List.range u.length).reverse.map (· + 1)).findSome? (meta2TryAt rest) with
    | some n => 5 + n
    | none => 0
  else 0

/-- Length of the match (0 = no match) of `\s+<attr>="[^"]*"` (IGNORECASE)
at the head of `s`, for `attr` one of `integrity`, `crossorigin` (source
lines 329-330).  The literal starts with a non-space character, so greedy
`\s+` always consumes the whole whitespace run. -/
def attrMatchLen (attr : List Char) (s : List Char) : Nat :=
  let ws := s.takeWhile pySpace
  if ws.length = 0 then 0
  else if ciStarts attr (s.drop ws.length) then
    let v := s.drop (ws.length + attr.length)
    let w := v.takeWhile (· ≠ '"')
    if w.length < v.length then ws.length + attr.length + w.length + 1 else 0
  else 0

/-- `re.sub(pattern, "", s)` for a pattern whose head-match length is
computed by `matchLen` (0 = no match): leftmost, non-overlapping deletion.
Fuel-driven structural recursion; every match consumes at least one
character, so `fuel = s.length` (as supplied by `reSubDel`) always
suffices. -/
def reSubDelF (matchLen : List Char → Nat) : Nat → List Char → List Char
  | _, [] => []
  | 0, s => s
  | fuel + 1, c :: t =>
    let n := matchLen (c :: t)
    if n = 0 then c :: reSubDelF matchLen fuel t
    else reSubDelF matchLen fuel ((c :: t).drop n)

/-- `re.sub(pattern, "", s)`: leftmost, non-overlapping deletion. -/
def reSubDel (matchLen : List Char → Nat) (s : List Char) : List Char :=
  reSubDelF matchLen s.length s

/-- The `rewriter_js` runtime-interceptor script (source lines 268-304),
verbatim. -/
def rewriter_js : String := "\n<script>(function()\x7b\n  function mapUrl(u)\x7b\n    try\x7b\n      var a=document.createElement(\x27a\x27);\n      a.href=u;\n      if(!a.protocol || a.protocol===\x27file:\x27 || u.startsWith(\x27/\x27) || u.startsWith(\x27./\x27) || u.startsWith(\x27../\x27)) return u;\n      if(a.protocol===\x27http:\x27||a.protocol===\x27https:\x27)\x7b\n        var host=a.host; var path=a.pathname||\x27/\x27;\n        if(path.endsWith(\x27/\x27)) path += \x27index\x27;\n        if(path.startsWith(\x27/\x27)) path = path.slice(1);\n        var safePath=path.replace(/[^A-Za-z0-9._/,-]/g,\x27_\x27).replace(/\\/\x7b2,\x7d/g,\x27/\x27);\n        var rel=\x27assets/\x27;\n        if(!/^(.+\\.)?kalashnikovgroup\\.ru$/i.test(host)) rel += \x27external/\x27 + host.replace(/[^A-Za-z0-9.-]/g,\x27_\x27) + \x27/\x27;\n        return \x27/\x27 + rel + safePath;\n      \x7d\n    \x7dcatch(e)\x7breturn u\x7d\n    return u;\n  \x7d\n  var ofetch=window.fetch;\n  if(ofetch)\x7b\n    window.fetch=function(input, init)\x7b\n      try\x7b\n        var url = (typeof input===\x27string\x27)? input : (input && input.url ? input.url : input);\n        var mapped = mapUrl(url);\n        if(typeof input===\x27string\x27) return ofetch(mapped, init||undefined);\n        try\x7b return ofetch(new Request(mapped, input), init||undefined);\x7dcatch(e)\x7b return ofetch(mapped, init||undefined); \x7d\n      \x7dcatch(e)\x7b return ofetch(input, init||undefined); \x7d\n    \x7d\n  \x7d\n  var oopen = XMLHttpRequest.prototype.open;\n  XMLHttpRequest.prototype.open = function(method, url)\x7b\n    try\x7b arguments[1]=mapUrl(url);\x7dcatch(e)\x7b\x7d\n    return oopen.apply(this, arguments);\n  \x7d;\n\x7d)();</script>\n"

/-- `f"//{parsed.netloc}{parsed.path}"` (source line 316). -/
def proto_rel_of (parsed : ParseResultL) : List Char :=
  '/' :: '/' :: (parsed.netloc ++ parsed.path)

/-- Pass 1 for one URL-map pair: replace the literal remote URL
(source line 312). -/
def pass_full (m src_url local_rel : List Char) : List Char :=
  pyReplace src_url local_rel m

/-- Pass 2: replace the protocol-relative form, when the URL has a netloc
(source lines 315-317). -/
def pass_proto (m : List Char) (parsed : ParseResultL) (local_rel : List Char) : List Char :=
  if parsed.netloc ≠ [] then pyReplace (proto_rel_of parsed) local_rel m else m

/-- Pass 3: replace the bare path component, when nonempty (source
lines 319-320). -/
def pass_path (m : List Char) (parsed : ParseResultL) (local_rel : List Char) : List Char :=
  if parsed.path ≠ [] then pyReplace parsed.path local_rel m else m

/-- The rewrite steps for one `(src_url, local_rel)` URL-map pair (source
lines 309-322).  The surrounding `try` catches the `ValueError` that
`urlparse` may raise after pass 1 has already been applied; the remaining
passes are then skipped. -/
def applyPairL (m src_url local_rel : List Char) : List Char :=
  match urlparseL src_url with
  | .error _ => pass_full m src_url local_rel
  | .ok parsed => pass_path (pass_proto (pass_full m src_url local_rel) parsed local_rel) parsed local_rel

/-- The URL-substitution stage: the three passes applied for every pair of
the URL map, in insertion order. -/
def applyUrlMapL (um : List (List Char × List Char)) (m : List Char) : List Char :=
  um.foldl (fun acc p => applyPairL acc p.1 p.2) m

/-- The two CSP `<meta>` removal substitutions, in source order
(lines 326-327). -/
def cspStripL (m : List Char) : List Char :=
  reSubDel metaMatchLen2 (reSubDel metaMatchLen1 m)

/-- The `integrity` / `crossorigin` attribute stripping substitutions
(lines 329-330). -/
def attrStripL (m : List Char) : List Char :=
  reSubDel (attrMatchLen "crossorigin=\"".data)
    (reSubDel (attrMatchLen "integrity=\"".data) m)

/-- Injection of the interceptor: before every `</head>` when present,
else prepended (source lines 334-337). -/
def injectRewriterL (m : List Char) : List Char :=
  if occursL "</head>".data m then
    pyReplace "</head>".data (rewriter_js.data ++ "</head>".data) m
  else rewriter_js.data ++ m

/-- The whole rewrite stage of `capture_page` (source lines 307-337):
URL-map substitution passes, CSP removal, SRI/crossorigin stripping,
interceptor injection. -/
def rewriteMarkup (um : List (String × String)) (html : String) : String :=
  ⟨injectRewriterL (attrStripL (cspStripL
    (applyUrlMapL (um.map (fun p => (p.1.data, p.2.data))) html.data)))⟩

/-- Session state built by the recording paths: the URL map (a dict in
insertion order) and the log of asset-body disk writes
`(url, rel_path, body)`. -/
structure CapState where
  map : List (String × String)
  writes : List (String × String × String)
deriving Repr, DecidableEq

/-- One observed network response (`on_response` argument): URL, status,
`content-type` header already defaulted to `""`, and the body
(`None` models an unavailable body). -/
structure RespEvent where
  url : String
  status : Int
  ct : String
  body : Option String
deriving Repr, DecidableEq

/-- Dict lookup `url in saved_map` / `saved_map[url]`. -/
def lookupMap (m : List (String × String)) (u : String) : Option String :=
  match m.find? (fun p => p.1 == u) with
  | some p => some p.2
  | none => none

/-- Content-type markers of the static-asset heuristic (source
lines 126-135). -/
def CT_MARKERS : List (List Char) :=
  ["text/css".data, "javascript".data, "application/x-javascript".data,
   "application/octet-stream".data, "application/wasm".data, "model/".data,
   "application/gltf+json".data, "application/json".data]

/-- File-extension allow-list of the static-asset heuristic (source
lines 136-141). -/
def ASSET_EXTS : List (List Char) :=
  [".css".data, ".js".data, ".mjs".data, ".png".data, ".jpg".data,
   ".jpeg".data, ".webp".data, ".gif".data, ".svg".data, ".ico".data,
   ".woff".data, ".woff2".data, ".ttf".data, ".eot".data, ".otf".data,
   ".mp4".data, ".webm".data, ".mp3".data, ".ogg".data, ".wav".data,
   ".gltf".data, ".glb".data, ".bin".data, ".wasm".data, ".ktx".data,
   ".ktx2".data, ".basis".data, ".hdr".data, ".env".data, ".dds".data,
   ".json".data]

/-- The non-raising part of the static-asset heuristic (source
lines 126-141): content-type marker containment in the lowercased header,
or extension match on the lowercased URL up to the first `?`. -/
def should_save_fast (ev : RespEvent) : Bool :=
  CT_MARKERS.any (fun x => occursL x (asciiLowerL ev.ct.data)) ||
    ASSET_EXTS.any (fun e => e.isSuffixOf ((asciiLowerL ev.url.data).takeWhile (· ≠ '?')))

/-- The network-listener recording path, `on_response` (source
lines 118-155).  The whole handler body is wrapped in `try/except: pass`,
so a `ValueError` from `urlparse`/`local_path_for_url` leaves the state
unchanged.  The `or`-chain is lazy: the `/_next/` check (and hence its
possible exception) is only reached when the content-type and extension
checks fail.  `str.lower` is modelled on ASCII. -/
def on_response (ev : RespEvent) (st : CapState) : CapState :=
  if ev.status < 200 ∨ 400 ≤ ev.status then st
  else
    match (if should_save_fast ev then Except.ok true
           else
             match urlparseL ev.url.data with
             | .error e => .error e
             | .ok p => .ok ("/_next/".data.isPrefixOf p.path) :
           Except (List Char) Bool) with
    | .error _ => st
    | .ok false => st
    | .ok true =>
      match local_path_for_urlL ev.url.data with
      | .error _ => st
      | .ok none => st
      | .ok (some rel) =>
        if (lookupMap st.map ev.url).isSome then st
        else
          match ev.body with
          | none => st
          | some body =>
            { map := st.map ++ [(ev.url, ⟨pyReplace ['\\'] ['/'] rel⟩)],
              writes := st.writes ++ [(ev.url, ⟨rel⟩, body)] }

/-- One iteration of the DOM-scan fallback loop (source lines 242-265) for
a discovered URL.  The loop-level filters (empty `u`, `data:` URIs) and
the `urljoin(START_URL, u)` resolution happen upstream; `abs_url` is the
resolved absolute URL.  `on_disk` models `abs_path.exists()`; `fetched`
models the `fetch_binary` result (`None` = failed download, and Python's
`if data:` also rejects an empty body).  The per-asset write `try/except`
is modelled as a succeeding write.  This path is not inside a `try`, so a
`ValueError` from `local_path_for_url` propagates as `.error`. -/
def dom_step (abs_url : String) (on_disk : Bool) (fetched : Option String)
    (st : CapState) : Except (List Char) CapState :=
  if (lookupMap st.map abs_url).isSome then .ok st
  else
    match local_path_for_urlL abs_url.data with
    | .error e => .error e
    | .ok none => .ok st
    | .ok (some rel) =>
      if on_disk then
        .ok { st with map := st.map ++ [(abs_url, ⟨pyReplace ['\\'] ['/'] rel⟩)] }
      else
        match fetched with
        | none => .ok st
        | some body =>
          if body.isEmpty then .ok st
          else
            .ok { map := st.map ++ [(abs_url, ⟨pyReplace ['\\'] ['/'] rel⟩)],
                  writes := st.writes ++ [(abs_url, ⟨rel⟩, body)] }


/-- Python's `pat in s` on strings (used by the source itself for
`"</head>" in rewritten`). -/
def strContains (s pat : String) : Bool := occursL pat.data s.data

/-- String-level URL-substitution stage (passes 1-3 for every pair). -/
def applyUrlMap (um : List (String × String)) (html : String) : String :=
  ⟨applyUrlMapL (um.map (fun p => (p.1.data, p.2.data))) html.data⟩

/-- String-level CSP `<meta>` removal stage (the two `re.sub` passes of
source lines 326-327). -/
def cspStrip (html : String) : String := ⟨cspStripL html.data⟩




/-- C1: for the markup `<script src="https://primary.example/app.js"></script></head>`
and the URL map binding that URL to `assets/app.js`, the rewrite stage
does inject the interceptor script immediately before `</head>`, but the
output does not contain `<script src="assets/app.js">`: the bare-path
pass re-matches the `/app.js` inside the just-substituted `assets/app.js`
and produces `<script src="assetsassets/app.js">`. -/
theorem c1_end_to_end_scenario :
    rewriteMarkup [("https://primary.example/app.js", "assets/app.js")]
        "<script src=\"https://primary.example/app.js\"></script></head>"
      = "<script src=\"assetsassets/app.js\"></script>" ++ rewriter_js ++ "</head>"
  ∧ strContains
      (rewriteMarkup [("https://primary.example/app.js", "assets/app.js")]
        "<script src=\"https://primary.example/app.js\"></script></head>")
      "<script src=\"assets/app.js\">" = false
  ∧ strContains
      (rewriteMarkup [("https://primary.example/app.js", "assets/app.js")]
        "<script src=\"https://primary.example/app.js\"></script></head>")
      (rewriter_js ++ "</head>") = true := by
  refine ⟨by rfl, by rfl, by rfl⟩

/-- C2: counter-evidence for the rewrite round-trip.  In a markup holding
the literal remote URL, its protocol-relative form and its bare path, the
bare-path pass (pass 3) re-matches the `/app.js` inside the two
occurrences already rewritten to `assets/app.js` by passes 1-2, so the
three slots do not all end up as the identical local path. -/
theorem c2_round_trip_scenario :
    applyUrlMap [("https://primary.example/app.js", "assets/app.js")]
        "x https://primary.example/app.js y //primary.example/app.js z /app.js w"
      = "x assetsassets/app.js y assetsassets/app.js z assets/app.js w"
  ∧ "x assetsassets/app.js y assetsassets/app.js z assets/app.js w"
      ≠ "x assets/app.js y assets/app.js z assets/app.js w"
  ∧ strContains
      (applyUrlMap [("https://primary.example/app.js", "assets/app.js")]
        "x https://primary.example/app.js y //primary.example/app.js z /app.js w")
      "assetsassets/app.js" = true := by
  refine ⟨by rfl, by decide, by rfl⟩

/-- C5 counterexample: for the allow-listed host `kalashnikovgroup.ru` and
the URL path `/external/a.js`, the resulting relative path does begin with
`external/`, although the host is primary: the namespacing prefix is not
the only way `external/` can arise. -/
theorem c5_counterexample :
    "kalashnikovgroup.ru".data ∈ ALLOWED_HOSTS
  ∧ rel_path_for_url "https://kalashnikovgroup.ru/external/a.js"
      = .ok (some "external/a.js")
  ∧ "external/".data.isPrefixOf "external/a.js".data = true
  ∧ local_path_for_url "https://kalashnikovgroup.ru/external/a.js"
      = .ok (some "assets/external/a.js") := by
  refine ⟨by decide, by rfl, by rfl, by rfl⟩

/-- C6 counterexample: on the printable input `http://[x` the mapper does
not return at all: `urlparse` raises `ValueError("Invalid IPv6 URL")`
(an unmatched `[` in the authority), which `local_path_for_url` does not
catch. -/
theorem c6_counterexample :
    local_path_for_url "http://[x" = .error "Invalid IPv6 URL"
  ∧ (∀ c ∈ "http://[x".data, 31 < c.toNat ∧ c.toNat < 127) := by
  refine ⟨by rfl, by decide⟩

/-- C8 counterexample: a document with two CSP-declaring `meta` tags, the
second of which carries a `content` value containing `>`.  The removal
regexes (whose tag bodies may not cross a `>`, respectively need the
policy string inside the quoted `content` value) delete only the first
tag, so the output still contains a meta tag that declares a CSP via
`http-equiv`. -/
theorem c8_counterexample :
    rewriteMarkup []
        "<meta http-equiv=\"Content-Security-Policy\" content=\"default-src\"><meta content=\"a>b\" http-equiv=\"Content-Security-Policy\">"
      = rewriter_js ++ "<meta content=\"a>b\" http-equiv=\"Content-Security-Policy\">"
  ∧ strContains
      "<meta http-equiv=\"Content-Security-Policy\" content=\"default-src\"><meta content=\"a>b\" http-equiv=\"Content-Security-Policy\">"
      "<meta http-equiv=\"Content-Security-Policy\" content=\"default-src\">" = true
  ∧ strContains
      (rewriteMarkup []
        "<meta http-equiv=\"Content-Security-Policy\" content=\"default-src\"><meta content=\"a>b\" http-equiv=\"Content-Security-Policy\">")
      "<meta content=\"a>b\" http-equiv=\"Content-Security-Policy\">" = true := by
  refine ⟨by rfl, by rfl, by rfl⟩

theorem mem_addDir (l : List (List Char)) (d e : List Char) (h : d ∈ l) :
    d ∈ addDir l e := by
  unfold addDir
  split
  · exact h
  · exact List.mem_cons_of_mem _ h

theorem mem_foldl_addDir (ds : List (List Char)) (l : List (List Char))
    (d : List Char) (h : d ∈ l) : d ∈ ds.foldl addDir l := by
  induction ds generalizing l with
  | nil => exact h
  | cons e ds ih =>
    rw [List.foldl_cons]
    exact ih _ (mem_addDir _ _ _ h)

theorem elem_mem_foldl_addDir (ds : List (List Char)) (l : List (List Char)) :
    ∀ d ∈ ds, d ∈ ds.foldl addDir l := by
  induction ds generalizing l with
  | nil => intro d h; cases h
  | cons e ds ih =>
    intro d h
    rw [List.foldl_cons]
    rcases List.mem_cons.mp h with h | h
    · apply mem_foldl_addDir
      subst h
      unfold addDir
      split
      · assumption
      · exact List.mem_cons_self _ _
    · exact ih _ _ h

theorem foldl_addDir_of_mem (ds : List (List Char)) (l : List (List Char))
    (h : ∀ d ∈ ds, d ∈ l) : ds.foldl addDir l = l := by
  induction ds generalizing l with
  | nil => rfl
  | cons e ds ih =>
    have he : addDir l e = l := by
      unfold addDir
      rw [if_pos (h e (List.mem_cons_self _ _))]
    rw [List.foldl_cons, he]
    exact ih _ (fun d hd => h d (List.mem_cons_of_mem _ hd))

theorem foldl_addDir_idem (ds : List (List Char)) (l : List (List Char)) :
    ds.foldl addDir (ds.foldl addDir l) = ds.foldl addDir l :=
  foldl_addDir_of_mem _ _ (elem_mem_foldl_addDir ds l)

/-- C7: `local_path_for_url` is a pure function of the URL apart from its
directory-creation side effect: its value equals the pure mapping
whatever the filesystem state, and a second call on the same URL returns
the identical result and leaves the filesystem state unchanged. -/
theorem c7_mapping_deterministic (url : String) (fs : FS) :
    (local_path_for_url_io url fs).1 = local_path_for_url url
  ∧ (local_path_for_url_io url ((local_path_for_url_io url fs).2)).1
      = (local_path_for_url_io url fs).1
  ∧ (local_path_for_url_io url ((local_path_for_url_io url fs).2)).2
      = (local_path_for_url_io url fs).2 := by
  unfold local_path_for_url_io local_path_for_url local_path_for_urlL
  cases h : urlparseL url.data with
  | error e => simp
  | ok parsed =>
    by_cases hs : isHttpScheme parsed.scheme
    · simp [hs, foldl_addDir_idem]
    · simp [hs]

/-- C9: first-write-wins on both recording paths.  If the URL is already
present in the URL map when a network-response event is handled, or when
the DOM-scan fallback processes it, the state — mapping and write log —
is left completely unchanged: no second disk write occurs. -/
theorem c9_first_write_wins :
    (∀ (ev : RespEvent) (st : CapState),
      (lookupMap st.map ev.url).isSome = true → on_response ev st = st)
  ∧ (∀ (abs_url : String) (on_disk : Bool) (fetched : Option String)
      (st : CapState),
      (lookupMap st.map abs_url).isSome = true →
        dom_step abs_url on_disk fetched st = .ok st) := by
  constructor
  · intro ev st h
    unfold on_response
    split
    · rfl
    · split
      · rfl
      · rfl
      · split
        · rfl
        · rfl
        · simp [h]
  · intro abs_url on_disk fetched st h
    unfold dom_step
    simp [h]


/-- C9 witness: a state already holding a URL is untouched by a second
response event for it and by the DOM-scan fallback. -/
theorem c9_first_write_wins_witness :
    (lookupMap [("https://kalashnikovgroup.ru/a.js", "assets/a.js")]
        "https://kalashnikovgroup.ru/a.js").isSome = true
  ∧ on_response
      ⟨"https://kalashnikovgroup.ru/a.js", 200, "text/css", some "NEWBODY"⟩
      ⟨[("https://kalashnikovgroup.ru/a.js", "assets/a.js")], []⟩
      = ⟨[("https://kalashnikovgroup.ru/a.js", "assets/a.js")], []⟩
  ∧ dom_step "https://kalashnikovgroup.ru/a.js" false (some "NEWBODY")
      ⟨[("https://kalashnikovgroup.ru/a.js", "assets/a.js")], []⟩
      = .ok ⟨[("https://kalashnikovgroup.ru/a.js", "assets/a.js")], []⟩ := by
  refine ⟨by rfl, ?_, ?_⟩
  · exact c9_first_write_wins.1 _ _ (by rfl)
  · exact c9_first_write_wins.2 _ _ _ _ (by rfl)

/-- C3: the scheme filter.  Whenever `urlparse` returns (it raises only
for a malformed bracketed authority, treated under C6), a URL whose
scheme is not `http`/`https` maps to `None`; and in no case whatsoever is
a local path produced for such a URL. -/
theorem c3_scheme_filter (url : String) :
    (∀ parsed : ParseResultL, urlparseL url.data = .ok parsed →
      parsed.scheme ≠ "http".data → parsed.scheme ≠ "https".data →
        local_path_for_url url = .ok none)
  ∧ (∀ r : String, local_path_for_url url = .ok (some r) →
      ∃ parsed : ParseResultL, urlparseL url.data = .ok parsed ∧
        (parsed.scheme = "http".data ∨ parsed.scheme = "https".data)) := by
  constructor
  · intro parsed hp h1 h2
    have hs : isHttpScheme parsed.scheme = false := by
      unfold isHttpScheme
      simp [h1, h2]
    unfold local_path_for_url local_path_for_urlL
    rw [hp]
    simp [hs]
  · intro r hr
    unfold local_path_for_url local_path_for_urlL at hr
    cases hp : urlparseL url.data with
    | error e => rw [hp] at hr; simp at hr
    | ok parsed =>
      rw [hp] at hr
      by_cases hs : isHttpScheme parsed.scheme
      · refine ⟨parsed, rfl, ?_⟩
        unfold isHttpScheme at hs
        simpa using hs
      · simp [hs] at hr

/-- C3 witness: the data URI from the spec maps to `None`. -/
theorem c3_scheme_filter_witness :
    local_path_for_url "data:image/png;base64,AAAA" = .ok none :=
  (c3_scheme_filter "data:image/png;base64,AAAA").1
    ⟨"data".data, [], "image/png;base64,AAAA".data, [], [], []⟩
    (by rfl) (by decide) (by decide)

theorem pyReplaceF_fuel (pat rep : List Char) :
    ∀ (n : Nat) (s : List Char) (f : Nat), s.length ≤ n → s.length ≤ f →
      pyReplaceF pat rep f s = pyReplaceF pat rep s.length s := by
  intro n
  induction n with
  | zero =>
    intro s f h1 _
    have : s = [] := List.length_eq_zero.mp (Nat.le_zero.mp h1)
    subst this
    cases f <;> rfl
  | succ n ih =>
    intro s f h1 h2
    cases s with
    | nil => cases f <;> rfl
    | cons c t =>
      cases f with
      | zero => simp at h2
      | succ f' =>
        simp only [List.length_cons] at h1 h2 ⊢
        show pyReplaceF pat rep (f' + 1) (c :: t)
          = pyReplaceF pat rep (t.length + 1) (c :: t)
        simp only [pyReplaceF]
        by_cases hp : pat = []
        · rw [if_pos hp, if_pos hp,
            ih t f' (by omega) (by omega), ih t t.length (by omega) (by omega)]
        · rw [if_neg hp, if_neg hp]
          by_cases hpre : pat.isPrefixOf (c :: t)
          · rw [if_pos hpre, if_pos hpre]
            have hlen : ((c :: t).drop pat.length).length ≤ t.length := by
              have : 0 < pat.length := List.length_pos.mpr hp
              simp only [List.length_drop, List.length_cons]
              omega
            rw [ih _ f' (by omega) (by omega), ih _ t.length (by omega) (by omega)]
          · rw [if_neg hpre, if_neg hpre,
              ih t f' (by omega) (by omega), ih t t.length (by omega) (by omega)]

theorem pyReplaceF_eq (pat rep : List Char) (f : Nat) (s : List Char)
    (h : s.length ≤ f) : pyReplaceF pat rep f s = pyReplace pat rep s :=
  pyReplaceF_fuel pat rep s.length s f le_rfl h

theorem pyReplace_nil (pat rep : List Char) :
    pyReplace pat rep [] = if pat = [] then rep else [] := rfl

theorem pyReplace_cons (pat rep : List Char) (c : Char) (t : List Char) :
    pyReplace pat rep (c :: t)
      = if pat = [] then rep ++ c :: pyReplace pat rep t
        else if pat.isPrefixOf (c :: t) then
          rep ++ pyReplace pat rep ((c :: t).drop pat.length)
        else c :: pyReplace pat rep t := by
  show pyReplaceF pat rep (t.length + 1) (c :: t) = _
  simp only [pyReplaceF]
  by_cases hp : pat = []
  · rw [if_pos hp, if_pos hp, pyReplaceF_eq pat rep t.length t le_rfl]
  · rw [if_neg hp, if_neg hp]
    by_cases hpre : pat.isPrefixOf (c :: t)
    · rw [if_pos hpre, if_pos hpre]
      have : 0 < pat.length := List.length_pos.mpr hp
      rw [pyReplaceF_eq pat rep t.length _ (by simp only [List.length_drop, List.length_cons]; omega)]
    · rw [if_neg hpre, if_neg hpre, pyReplaceF_eq pat rep t.length t le_rfl]

theorem splitOnCharL_ne_nil (c : Char) (s : List Char) :
    splitOnCharL c s ≠ [] := by
  cases s with
  | nil => simp [splitOnCharL]
  | cons a t =>
    unfold splitOnCharL
    split
    · simp
    · split <;> simp

theorem splitOnCharL_cons (c a : Char) (t : List Char) :
    splitOnCharL c (a :: t)
      = if a = c then [] :: splitOnCharL c t
        else match splitOnCharL c t with
          | [] => [[a]]
          | g :: gs => (a :: g) :: gs := rfl

theorem single_isPrefixOf (c a : Char) (t : List Char) :
    ([c].isPrefixOf (a :: t)) = (c == a) := by
  simp [List.isPrefixOf]

theorem pyReplace_single (c : Char) (rep : List Char) (s : List Char) :
    pyReplace [c] rep s = interJoin rep (splitOnCharL c s) := by
  induction s with
  | nil => simp [pyReplace_nil, splitOnCharL, interJoin]
  | cons a t ih =>
    have h1 : ¬ ([c] : List Char) = [] := by simp
    rcases hg : splitOnCharL c t with _ | ⟨g, gs⟩
    · exact absurd hg (splitOnCharL_ne_nil c t)
    · by_cases hac : a = c
      · subst hac
        rw [pyReplace_cons, if_neg h1, if_pos (by simp [single_isPrefixOf]),
          splitOnCharL_cons, if_pos rfl, hg]
        have hdrop : ((a :: t).drop ([a] : List Char).length) = t := by simp
        rw [hdrop, ih, hg]
        simp [interJoin]
      · rw [pyReplace_cons, if_neg h1,
          if_neg (by simp only [single_isPrefixOf, beq_iff_eq]; exact fun h => hac h.symm),
          splitOnCharL_cons, if_neg hac, hg, ih, hg]
        cases gs with
        | nil => simp [interJoin]
        | cons x r => simp [interJoin]

/-- C10: if the URL map holds a site-root URL (path component exactly
`/`), the bare-path pass replaces every single `/` anywhere in the markup
(as produced by passes 1-2) with that URL's local path: the result is the
`/`-split of the markup joined with the local path. -/
theorem c10_site_root_in_map (m u local_rel : List Char) (parsed : ParseResultL)
    (hp : urlparseL u = .ok parsed) (hpath : parsed.path = ['/']) :
    applyPairL m u local_rel
      = interJoin local_rel (splitOnCharL '/'
          (pass_proto (pass_full m u local_rel) parsed local_rel)) := by
  unfold applyPairL
  rw [hp]
  unfold pass_path
  simp only [hpath]
  split
  · exact pyReplace_single '/' local_rel _
  · rename_i h
    exact absurd (by simp) h

/-- C10 witness: the site root `https://kalashnikovgroup.ru/` mapped to
`assets/index` splinters a markup at every slash. -/
theorem c10_site_root_in_map_witness :
    urlparseL "https://kalashnikovgroup.ru/".data
      = .ok ⟨"https".data, "kalashnikovgroup.ru".data, "/".data, [], [], []⟩
  ∧ applyPairL "<a href=\"/about\">home</a>".data
        "https://kalashnikovgroup.ru/".data "assets/index".data
      = interJoin "assets/index".data (splitOnCharL '/'
          (pass_proto
            (pass_full "<a href=\"/about\">home</a>".data
              "https://kalashnikovgroup.ru/".data "assets/index".data)
            ⟨"https".data, "kalashnikovgroup.ru".data, "/".data, [], [], []⟩
            "assets/index".data))
  ∧ applyPairL "<a href=\"/about\">home</a>".data
        "https://kalashnikovgroup.ru/".data "assets/index".data
      = "<a href=\"assets/indexabout\">home<assets/indexa>".data :=
  ⟨by rfl,
   c10_site_root_in_map _ _ _
     ⟨"https".data, "kalashnikovgroup.ru".data, "/".data, [], [], []⟩
     (by rfl) rfl,
   by rfl⟩

theorem prefix_join_head (x : List Char) (rest : List (List Char)) :
    x <+: joinSegs (x :: rest) := by
  cases rest with
  | nil => exact List.prefix_refl x
  | cons y r =>
    show x <+: x ++ '/' :: joinSegs (y :: r)
    exact List.prefix_append x _

/-- C5 (amended): host partitioning.  For a successfully parsed http(s)
URL with a nonempty host outside the allow-list (whose sanitized form is
not the `Path`-dropped component `.`), the relative-path segments are
`external`, the sanitized host, then the URL's own sanitized path
segments — so the joined relative path starts with
`external/<sanitized-host>`.  For an allow-listed host no namespacing is
added: the segments are exactly the URL's own sanitized path segments
(which may themselves start with `external` when the URL path does). -/
theorem c5_host_partition (url : String) (parsed : ParseResultL)
    (hp : urlparseL url.data = .ok parsed)
    (hs : isHttpScheme parsed.scheme = true) :
    (parsed.netloc ≠ [] → parsed.netloc ∉ ALLOWED_HOSTS →
      sanitizeHost parsed.netloc ≠ ['.'] →
        rel_segs_of parsed
          = "external".data :: sanitizeHost parsed.netloc ::
              partsFilter (splitOnCharL '/' (safe_path_of parsed))
        ∧ ("external".data ++ '/' :: sanitizeHost parsed.netloc)
            <+: joinSegs (rel_segs_of parsed))
  ∧ (parsed.netloc ∈ ALLOWED_HOSTS →
      rel_segs_of parsed = partsFilter (splitOnCharL '/' (safe_path_of parsed)))
  ∧ local_path_for_url url
      = .ok (some ⟨joinSegs ("assets".data :: rel_segs_of parsed)⟩) := by
  refine ⟨?_, ?_, ?_⟩
  · intro hne hnm hdot
    have hh : sanitizeHost parsed.netloc ≠ [] := by
      simpa [sanitizeHost] using hne
    have hEq : rel_segs_of parsed
        = "external".data :: sanitizeHost parsed.netloc ::
            partsFilter (splitOnCharL '/' (safe_path_of parsed)) := by
      unfold rel_segs_of rel_parts_of partsFilter
      rw [if_pos ⟨hne, hnm⟩]
      show List.filter _ ("external".data :: sanitizeHost parsed.netloc :: _) = _
      rw [List.filter_cons_of_pos (by decide),
        List.filter_cons_of_pos (by simp [hh, hdot])]
      simp [partsFilter]
    refine ⟨hEq, ?_⟩
    rw [hEq]
    show "external".data ++ '/' :: sanitizeHost parsed.netloc
      <+: "external".data ++ '/' :: joinSegs (sanitizeHost parsed.netloc :: _)
    rcases prefix_join_head (sanitizeHost parsed.netloc)
        (partsFilter (splitOnCharL '/' (safe_path_of parsed))) with ⟨tl, htl⟩
    exact ⟨tl, by rw [← htl]; simp⟩
  · intro hmem
    unfold rel_segs_of rel_parts_of
    rw [if_neg (fun h => h.2 hmem)]
    rfl
  · unfold local_path_for_url local_path_for_urlL
    rw [hp]
    simp [hs]

/-- C5 witness: `https://cdn.other.example/a.js` is namespaced under
`external/cdn.other.example`. -/
theorem c5_host_partition_witness :
    (rel_segs_of ⟨"https".data, "cdn.other.example".data, "/a.js".data, [], [], []⟩
      = "external".data :: sanitizeHost "cdn.other.example".data ::
          partsFilter (splitOnCharL '/'
            (safe_path_of ⟨"https".data, "cdn.other.example".data, "/a.js".data, [], [], []⟩))
    ∧ ("external".data ++ '/' :: sanitizeHost "cdn.other.example".data)
        <+: joinSegs (rel_segs_of
          ⟨"https".data, "cdn.other.example".data, "/a.js".data, [], [], []⟩))
  ∧ local_path_for_url "https://cdn.other.example/a.js"
      = .ok (some "assets/external/cdn.other.example/a.js") := by
  have T := c5_host_partition "https://cdn.other.example/a.js"
    ⟨"https".data, "cdn.other.example".data, "/a.js".data, [], [], []⟩
    (by rfl) (by rfl)
  exact ⟨T.1 (by decide) (by decide) (by decide), by rfl⟩

theorem collapseSlashes_eq_self (s : List Char) (h : ∀ x ∈ s, x ≠ '/') :
    collapseSlashes s = s := by
  induction s with
  | nil => rfl
  | cons a t ih =>
    cases t with
    | nil => rfl
    | cons b r =>
      unfold collapseSlashes
      rw [if_neg (fun hc => (h a (List.mem_cons_self _ _)) hc.1)]
      exact congrArg _ (ih (fun x hx => h x (List.mem_cons_of_mem _ hx)))

theorem collapseSlashes_slash_cons (w : List Char) (hw : w ≠ [])
    (hwf : ∀ x ∈ w, x ≠ '/') :
    collapseSlashes ('/' :: w) = '/' :: w := by
  cases w with
  | nil => exact absurd rfl hw
  | cons e w' =>
    unfold collapseSlashes
    rw [if_neg (fun hc => (hwf e (List.mem_cons_self _ _)) hc.2)]
    exact congrArg _ (collapseSlashes_eq_self _ hwf)

theorem collapseSlashes_slash_suffix (w : List Char) (hw : w ≠ [])
    (hwf : ∀ x ∈ w, x ≠ '/') :
    ∀ y, ∃ y2, collapseSlashes (y ++ '/' :: w) = y2 ++ '/' :: w := by
  intro y
  induction y with
  | nil => exact ⟨[], collapseSlashes_slash_cons w hw hwf⟩
  | cons a y' ih =>
    cases y' with
    | nil =>
      by_cases ha : a = '/'
      · subst ha
        refine ⟨[], ?_⟩
        show collapseSlashes ('/' :: '/' :: w) = '/' :: w
        unfold collapseSlashes
        rw [if_pos ⟨rfl, rfl⟩]
        exact collapseSlashes_slash_cons w hw hwf
      · refine ⟨[a], ?_⟩
        show collapseSlashes (a :: '/' :: w) = a :: '/' :: w
        unfold collapseSlashes
        rw [if_neg (fun hc => ha hc.1)]
        exact congrArg _ (collapseSlashes_slash_cons w hw hwf)
    | cons b y'' =>
      rcases ih with ⟨y2, hy2⟩
      by_cases hab : a = '/' ∧ b = '/'
      · refine ⟨y2, ?_⟩
        show collapseSlashes (a :: b :: (y'' ++ '/' :: w)) = y2 ++ '/' :: w
        unfold collapseSlashes
        rw [if_pos hab]
        exact hy2
      · refine ⟨a :: y2, ?_⟩
        show collapseSlashes (a :: b :: (y'' ++ '/' :: w)) = a :: (y2 ++ '/' :: w)
        unfold collapseSlashes
        rw [if_neg hab]
        exact congrArg _ hy2

theorem eq_concat_of_getLast? (l : List Char) (a : Char)
    (h : l.getLast? = some a) : ∃ t, l = t ++ [a] := by
  induction l with
  | nil => simp [List.getLast?] at h
  | cons b t ih =>
    cases t with
    | nil =>
      simp [List.getLast?] at h
      exact ⟨[], by simp [h]⟩
    | cons c r =>
      rw [List.getLast?_cons_cons] at h
      rcases ih h with ⟨t', ht⟩
      exact ⟨b :: t', by simp [ht]⟩

theorem splitOnCharL_of_not_mem (c : Char) (w : List Char)
    (h : ∀ x ∈ w, x ≠ c) : splitOnCharL c w = [w] := by
  induction w with
  | nil => rfl
  | cons a t ih =>
    rw [splitOnCharL_cons, if_neg (h a (List.mem_cons_self _ _)),
      ih (fun x hx => h x (List.mem_cons_of_mem _ hx))]

theorem splitOnCharL_append_sep (c : Char) (l₁ l₂ : List Char) :
    splitOnCharL c (l₁ ++ c :: l₂) = splitOnCharL c l₁ ++ splitOnCharL c l₂ := by
  induction l₁ with
  | nil =>
    show splitOnCharL c (c :: l₂) = splitOnCharL c [] ++ splitOnCharL c l₂
    rw [splitOnCharL_cons, if_pos rfl]
    rfl
  | cons a t ih =>
    by_cases hac : a = c
    · rw [List.cons_append, splitOnCharL_cons, if_pos hac, ih,
        splitOnCharL_cons, if_pos hac]
      rfl
    · rw [List.cons_append, splitOnCharL_cons, if_neg hac, ih,
        splitOnCharL_cons (c) a t, if_neg hac]
      rcases hg : splitOnCharL c t with _ | ⟨g, gs⟩
      · exact absurd hg (splitOnCharL_ne_nil c t)
      · simp

theorem join_suffix_last (w : List Char) :
    ∀ (segs : List (List Char)) (pre : List Char), segs.getLast? = some w →
      '/' :: w <:+ joinSegs (pre :: segs) := by
  intro segs
  induction segs with
  | nil => intro pre h; simp [List.getLast?] at h
  | cons x rest ih =>
    intro pre h
    cases rest with
    | nil =>
      simp [List.getLast?] at h
      subst h
      show '/' :: x <:+ pre ++ '/' :: x
      exact List.suffix_append pre ('/' :: x)
    | cons y r =>
      rw [List.getLast?_cons_cons] at h
      have h2 : joinSegs (x :: y :: r) <:+ pre ++ '/' :: joinSegs (x :: y :: r) :=
        ⟨pre ++ ['/'], by simp⟩
      exact (ih x h).trans h2

theorem safe_path_shape (p : List Char) (hp : p = [] ∨ p.getLast? = some '/') :
    safe_path_core p = "index".data
      ∨ ∃ y, safe_path_core p = y ++ '/' :: "index".data := by
  have hfree : ∀ x ∈ "index".data, x ≠ '/' := by decide
  have h0 : (path_default p).getLast? = some '/' := by
    rcases hp with h | h
    · rw [path_default, if_pos h]
      rfl
    · have hne : p ≠ [] := by
        intro he
        rw [he] at h
        simp [List.getLast?] at h
      rw [path_default, if_neg hne]
      exact h
  rcases eq_concat_of_getLast? _ _ h0 with ⟨q, hq⟩
  have h1 : path_index (path_default p) = q ++ '/' :: "index".data := by
    rw [path_index, if_pos h0, hq]
    simp
  cases q with
  | nil =>
    left
    unfold safe_path_core
    rw [h1]
    simp only [List.nil_append]
    rw [show path_strip ('/' :: "index".data) = "index".data from rfl]
    rw [show sanitizePath "index".data = "index".data from rfl]
    exact collapseSlashes_eq_self _ hfree
  | cons c q' =>
    right
    unfold safe_path_core
    rw [h1]
    have hsane : ∀ x, sanitizePath (x ++ '/' :: "index".data)
        = sanitizePath x ++ '/' :: "index".data := by
      intro x
      unfold sanitizePath
      rw [List.map_append]
      rfl
    by_cases hc : c = '/'
    · subst hc
      rw [path_strip, List.cons_append,
        if_pos (show ('/' :: (q' ++ '/' :: "index".data) : List Char).headD ' '
          = '/' from rfl),
        List.tail_cons, hsane]
      exact collapseSlashes_slash_suffix _ (by decide) hfree _
    · rw [path_strip, List.cons_append,
        if_neg (show ¬ (c :: (q' ++ '/' :: "index".data) : List Char).headD ' '
          = '/' from by simpa using hc)]
      rw [← List.cons_append, hsane]
      exact collapseSlashes_slash_suffix _ (by decide) hfree _

/-- C4: directory index.  For every successfully parsed http(s) URL whose
path component is empty or ends in `/`, the mapper returns a relative
path ending in the literal segment `index`. -/
theorem c4_directory_index (url : String) (parsed : ParseResultL)
    (hp : urlparseL url.data = .ok parsed)
    (hs : isHttpScheme parsed.scheme = true)
    (hpath : parsed.path = [] ∨ parsed.path.getLast? = some '/') :
    ∃ r : String, local_path_for_url url = .ok (some r)
      ∧ "/index".data <:+ r.data := by
  have hval : local_path_for_url url
      = .ok (some ⟨joinSegs ("assets".data :: rel_segs_of parsed)⟩) := by
    unfold local_path_for_url local_path_for_urlL
    rw [hp]
    simp [hs]
  have hidx : List.filter (fun s => decide (s ≠ [] ∧ s ≠ ['.'])) ["index".data]
      = ["index".data] := rfl
  have hsegs : (rel_segs_of parsed).getLast? = some "index".data := by
    unfold rel_segs_of
    rcases safe_path_shape parsed.path hpath with h | ⟨y, h⟩
    · rw [show safe_path_of parsed = "index".data from h]
      rw [splitOnCharL_of_not_mem _ _ (by decide)]
      unfold partsFilter
      rw [List.filter_append, hidx, List.getLast?_concat]
    · rw [show safe_path_of parsed = y ++ '/' :: "index".data from h]
      rw [splitOnCharL_append_sep, splitOnCharL_of_not_mem '/' "index".data (by decide)]
      unfold partsFilter
      rw [← List.append_assoc, List.filter_append, hidx, List.getLast?_concat]
  refine ⟨_, hval, ?_⟩
  exact join_suffix_last "index".data (rel_segs_of parsed) "assets".data hsegs

/-- C4 witness: the two spec examples, a directory path and the bare
root, both map to paths ending in `/index`. -/
theorem c4_directory_index_witness :
    (∃ r : String, local_path_for_url "https://primary.example/about/"
        = .ok (some r) ∧ "/index".data <:+ r.data)
  ∧ (∃ r : String, local_path_for_url "https://primary.example/"
        = .ok (some r) ∧ "/index".data <:+ r.data)
  ∧ local_path_for_url "https://primary.example/about/"
      = .ok (some "assets/external/primary.example/about/index") := by
  refine ⟨?_, ?_, by rfl⟩
  · exact c4_directory_index "https://primary.example/about/"
      ⟨"https".data, "primary.example".data, "/about/".data, [], [], []⟩
      (by rfl) (by rfl) (by decide)
  · exact c4_directory_index "https://primary.example/"
      ⟨"https".data, "primary.example".data, "/".data, [], [], []⟩
      (by rfl) (by rfl) (by decide)

theorem host_safe_imp_path_safe (c : Char) (h : SAFE_HOST_CHAR c = true) :
    SAFE_PATH_CHAR c = true := by
  unfold SAFE_HOST_CHAR at h
  unfold SAFE_PATH_CHAR
  simp only [Bool.or_eq_true] at h ⊢
  rcases h with ((((h | h) | h) | h) | h) <;> tauto

theorem sanitizePath_chars (s : List Char) :
    ∀ c ∈ sanitizePath s, SAFE_PATH_CHAR c = true := by
  intro c hc
  unfold sanitizePath at hc
  rcases List.mem_map.mp hc with ⟨a, _, ha⟩
  by_cases hs : SAFE_PATH_CHAR a
  · rw [if_pos hs] at ha
    exact ha ▸ hs
  · rw [if_neg hs] at ha
    exact ha ▸ (by decide)

theorem sanitizeHost_chars (s : List Char) :
    ∀ c ∈ sanitizeHost s, SAFE_PATH_CHAR c = true := by
  intro c hc
  unfold sanitizeHost at hc
  rcases List.mem_map.mp hc with ⟨a, _, ha⟩
  by_cases hs : SAFE_HOST_CHAR a
  · rw [if_pos hs] at ha
    exact ha ▸ host_safe_imp_path_safe a hs
  · rw [if_neg hs] at ha
    exact ha ▸ (by decide)

theorem collapseSlashes_subset (s : List Char) :
    ∀ c ∈ collapseSlashes s, c ∈ s := by
  intro c hc
  induction s with
  | nil => exact hc
  | cons a t ih =>
    cases t with
    | nil => exact hc
    | cons b r =>
      unfold collapseSlashes at hc
      split at hc
      · exact List.mem_cons_of_mem _ (ih hc)
      · rcases List.mem_cons.mp hc with h | h
        · exact h ▸ List.mem_cons_self _ _
        · exact List.mem_cons_of_mem _ (ih h)

theorem splitOnCharL_chars (sep : Char) (s : List Char) :
    ∀ x ∈ splitOnCharL sep s, ∀ c ∈ x, c ∈ s ∧ c ≠ sep := by
  induction s with
  | nil =>
    intro x hx c hc
    rcases List.mem_singleton.mp hx with rfl
    cases hc
  | cons a t ih =>
    intro x hx c hc
    rw [splitOnCharL_cons] at hx
    by_cases ha : a = sep
    · rw [if_pos ha] at hx
      rcases List.mem_cons.mp hx with h | h
      · subst h; cases hc
      · rcases ih x h c hc with ⟨h1, h2⟩
        exact ⟨List.mem_cons_of_mem _ h1, h2⟩
    · rw [if_neg ha] at hx
      rcases hg : splitOnCharL sep t with _ | ⟨g, gs⟩
      · exact absurd hg (splitOnCharL_ne_nil sep t)
      · rw [hg] at hx
        rcases List.mem_cons.mp hx with h | h
        · subst h
          rcases List.mem_cons.mp hc with h | h
          · exact ⟨h ▸ List.mem_cons_self _ _, h ▸ ha⟩
          · rcases ih g (hg ▸ List.mem_cons_self _ _) c h with ⟨h1, h2⟩
            exact ⟨List.mem_cons_of_mem _ h1, h2⟩
        · rcases ih x (hg ▸ List.mem_cons_of_mem _ h) c hc with ⟨h1, h2⟩
          exact ⟨List.mem_cons_of_mem _ h1, h2⟩

theorem joinSegs_chars (segs : List (List Char)) :
    ∀ c ∈ joinSegs segs, (∃ s ∈ segs, c ∈ s) ∨ c = '/' := by
  induction segs with
  | nil => intro c hc; cases hc
  | cons x rest ih =>
    intro c hc
    cases rest with
    | nil => exact Or.inl ⟨x, List.mem_cons_self _ _, hc⟩
    | cons y r =>
      rcases List.mem_append.mp hc with h | h
      · exact Or.inl ⟨x, List.mem_cons_self _ _, h⟩
      · rcases List.mem_cons.mp h with h | h
        · exact Or.inr h
        · rcases ih c h with ⟨s, hs, hcs⟩ | h
          · exact Or.inl ⟨s, List.mem_cons_of_mem _ hs, hcs⟩
          · exact Or.inr h

theorem occursL_cons (pat : List Char) (c : Char) (t : List Char) :
    occursL pat (c :: t) = (pat.isPrefixOf (c :: t) || occursL pat t) := rfl

theorem dd_isPrefixOf_false (c : Char) (hc : c ≠ '/') (t : List Char) :
    "//".data.isPrefixOf (c :: t) = false := by
  show (('/' == c) && _) = false
  simp [hc]
  intro h
  exact absurd h.symm hc

theorem dd_aux (s : List Char) (hs : ∀ c ∈ s, c ≠ '/') (y : List Char)
    (hy : occursL "//".data y = false) :
    occursL "//".data (s ++ y) = false := by
  induction s with
  | nil => exact hy
  | cons c t ih =>
    rw [List.cons_append, occursL_cons,
      dd_isPrefixOf_false c (hs c (List.mem_cons_self _ _)) _]
    simpa using ih (fun x hx => hs x (List.mem_cons_of_mem _ hx))

theorem dd_slash_cons (y : List Char) (hh : y.headD ' ' ≠ '/')
    (hy : occursL "//".data y = false) :
    occursL "//".data ('/' :: y) = false := by
  rw [occursL_cons]
  have hp : "//".data.isPrefixOf ('/' :: y) = false := by
    cases y with
    | nil => rfl
    | cons d t =>
      show (('/' == '/') && (('/' == d) && _)) = false
      simp only [List.headD] at hh
      simp [hh]
      intro h
      exact absurd h.symm hh
  rw [hp, hy]
  rfl

theorem joinSegs_ne_nil (s : List Char) (rest : List (List Char))
    (hs : s ≠ []) : joinSegs (s :: rest) ≠ [] := by
  cases rest with
  | nil => exact hs
  | cons y r =>
    show s ++ '/' :: joinSegs (y :: r) ≠ []
    simp

theorem headD_append (s y : List Char) (hs : s ≠ []) :
    (s ++ y).headD ' ' = s.headD ' ' := by
  cases s with
  | nil => exact absurd rfl hs
  | cons a t => rfl

theorem join_no_dd (segs : List (List Char))
    (h : ∀ s ∈ segs, s ≠ [] ∧ ∀ c ∈ s, c ≠ '/') :
    occursL "//".data (joinSegs segs) = false
      ∧ (segs ≠ [] → (joinSegs segs).headD ' ' ≠ '/') := by
  induction segs with
  | nil => exact ⟨rfl, fun h => absurd rfl h⟩
  | cons x rest ih =>
    rcases h x (List.mem_cons_self _ _) with ⟨hxne, hxf⟩
    cases rest with
    | nil =>
      constructor
      · show occursL "//".data x = false
        have := dd_aux x hxf [] (by rfl)
        simpa using this
      · intro _
        show x.headD ' ' ≠ '/'
        cases x with
        | nil => exact absurd rfl hxne
        | cons a t =>
          exact fun hh => (hxf a (List.mem_cons_self _ _)) hh
    | cons y r =>
      have ihr := ih (fun s hs => h s (List.mem_cons_of_mem _ hs))
      have hjne : joinSegs (y :: r) ≠ [] :=
        joinSegs_ne_nil y r (h y (List.mem_cons_of_mem _ (List.mem_cons_self _ _))).1
      have hjh : (joinSegs (y :: r)).headD ' ' ≠ '/' :=
        ihr.2 (by simp)
      constructor
      · show occursL "//".data (x ++ '/' :: joinSegs (y :: r)) = false
        exact dd_aux x hxf _ (dd_slash_cons _ hjh ihr.1)
      · intro _
        show (x ++ '/' :: joinSegs (y :: r)).headD ' ' ≠ '/'
        rw [headD_append _ _ hxne]
        cases x with
        | nil => exact absurd rfl hxne
        | cons a t => exact fun hh => (hxf a (List.mem_cons_self _ _)) hh

theorem urlparseL_ok_of (url : List Char) (s : SplitResultL)
    (hs : urlsplitL url = .ok s) : ∃ p, urlparseL url = .ok p := by
  unfold urlparseL
  rw [hs]
  dsimp only
  rcases hq : splitparamsL s.path with ⟨pp, prm⟩
  split
  · exact ⟨_, rfl⟩
  · exact ⟨_, rfl⟩

theorem sanitizeHost_no_slash (s : List Char) :
    ∀ c ∈ sanitizeHost s, c ≠ '/' := by
  intro c hc
  unfold sanitizeHost at hc
  rcases List.mem_map.mp hc with ⟨a, _, ha⟩
  by_cases hs : SAFE_HOST_CHAR a
  · rw [if_pos hs] at ha
    subst ha
    intro h
    rw [h] at hs
    exact absurd hs (by decide)
  · rw [if_neg hs] at ha
    subst ha
    decide

theorem rel_segs_props (parsed : ParseResultL) :
    ∀ s ∈ ("assets".data :: rel_segs_of parsed),
      (s ≠ [] ∧ ∀ c ∈ s, c ≠ '/') ∧ (∀ c ∈ s, SAFE_PATH_CHAR c = true) := by
  intro s hs
  rcases List.mem_cons.mp hs with h | h
  · subst h
    exact ⟨⟨by decide, by decide⟩, by decide⟩
  · unfold rel_segs_of partsFilter at h
    rcases List.mem_filter.mp h with ⟨hmem, hpred⟩
    have hne : s ≠ [] := by
      simp only [decide_eq_true_eq] at hpred
      exact hpred.1
    rcases List.mem_append.mp hmem with hrp | hsp
    · unfold rel_parts_of at hrp
      split at hrp
      · rcases List.mem_cons.mp hrp with h1 | h1
        · subst h1
          exact ⟨⟨by decide, by decide⟩, by decide⟩
        · rcases List.mem_cons.mp h1 with h2 | h2
          · subst h2
            exact ⟨⟨hne, sanitizeHost_no_slash _⟩, sanitizeHost_chars _⟩
          · cases h2
      · cases hrp
    · have hchars := splitOnCharL_chars '/' (safe_path_of parsed) s hsp
      refine ⟨⟨hne, fun c hc => (hchars c hc).2⟩, fun c hc => ?_⟩
      have hmem2 : c ∈ safe_path_of parsed := (hchars c hc).1
      unfold safe_path_of safe_path_core at hmem2
      exact sanitizePath_chars _ c (collapseSlashes_subset _ c hmem2)

/-- C6 (amended): totality and sanitization.  Whenever the authority the
URL parser extracts has no unmatched square bracket, `local_path_for_url`
returns (no exception escapes); and whenever it returns a path, every
character of that path lies in the safe set (letters, digits, `.`, `_`,
`-`, `,`, and the separator `/`) and the path contains no run of two or
more separators. -/
theorem c6_sanitization_safety (url : String) :
    (bracket_bad (netloc_candidate url.data) = false →
      ∃ v, local_path_for_url url = .ok v)
  ∧ (∀ r : String, local_path_for_url url = .ok (some r) →
      (∀ c ∈ r.data, SAFE_PATH_CHAR c = true)
      ∧ occursL "//".data r.data = false) := by
  constructor
  · intro h
    have hok : ∃ s, urlsplitL url.data = .ok s := by
      unfold urlsplitL
      rw [if_neg (by simp [h])]
      exact ⟨_, rfl⟩
    rcases hok with ⟨s, hs'⟩
    rcases urlparseL_ok_of url.data s hs' with ⟨p, hpk⟩
    cases hv : local_path_for_urlL url.data with
    | error e =>
      exfalso
      unfold local_path_for_urlL at hv
      rw [hpk] at hv
      by_cases hsc : isHttpScheme p.scheme <;> simp [hsc] at hv
    | ok v =>
      cases v with
      | none =>
        refine ⟨none, ?_⟩
        unfold local_path_for_url
        rw [hv]
      | some rl =>
        refine ⟨some ⟨rl⟩, ?_⟩
        unfold local_path_for_url
        rw [hv]
  · intro r hr
    unfold local_path_for_url at hr
    cases hv : local_path_for_urlL url.data with
    | error e => rw [hv] at hr; simp at hr
    | ok v =>
      rw [hv] at hr
      cases v with
      | none => simp at hr
      | some rl =>
        simp only [Except.ok.injEq, Option.some.injEq] at hr
        have hrd : r.data = rl := by rw [← hr]
        unfold local_path_for_urlL at hv
        cases hpk : urlparseL url.data with
        | error e => rw [hpk] at hv; simp at hv
        | ok parsed =>
          rw [hpk] at hv
          by_cases hsc : isHttpScheme parsed.scheme
          · simp only [hsc, not_true_eq_false, if_false, ite_false,
              Except.ok.injEq, Option.some.injEq] at hv
            have hvl : rl = joinSegs ("assets".data :: rel_segs_of parsed) := by
              rw [← hv]
            subst hvl
            rw [hrd]
            have hprops := rel_segs_props parsed
            constructor
            · intro c hc
              rcases joinSegs_chars _ c hc with ⟨s, hsm, hcs⟩ | hcl
              · exact (hprops s hsm).2 c hcs
              · subst hcl
                decide
            · exact (join_no_dd _ (fun s hsm => (hprops s hsm).1)).1
          · simp [hsc] at hv


/-- C6 witness: a URL with a space and a `%` in its path parses without a
raise and maps to a safe, separator-collapsed path. -/
theorem c6_sanitization_safety_witness :
    (∃ v, local_path_for_url "https://kalashnikovgroup.ru/a b.js%" = .ok v)
  ∧ ((∀ c ∈ ("assets/a_b.js_" : String).data, SAFE_PATH_CHAR c = true)
      ∧ occursL "//".data ("assets/a_b.js_" : String).data = false) :=
  ⟨(c6_sanitization_safety "https://kalashnikovgroup.ru/a b.js%").1 (by rfl),
   (c6_sanitization_safety "https://kalashnikovgroup.ru/a b.js%").2
     "assets/a_b.js_" (by rfl)⟩

theorem asciiLower_ne_lt (c : Char) (hc : c ≠ '<') : asciiLower c ≠ '<' := by
  intro h
  apply hc
  by_cases hA : c = 'A'
  · subst hA
    exact absurd h (by decide)
  by_cases hB : c = 'B'
  · subst hB
    exact absurd h (by decide)
  by_cases hC : c = 'C'
  · subst hC
    exact absurd h (by decide)
  by_cases hD : c = 'D'
  · subst hD
    exact absurd h (by decide)
  by_cases hE : c = 'E'
  · subst hE
    exact absurd h (by decide)
  by_cases hF : c = 'F'
  · subst hF
    exact absurd h (by decide)
  by_cases hG : c = 'G'
  · subst hG
    exact absurd h (by decide)
  by_cases hH : c = 'H'
  · subst hH
    exact absurd h (by decide)
  by_cases hI : c = 'I'
  · subst hI
    exact absurd h (by decide)
  by_cases hJ : c = 'J'
  · subst hJ
    exact absurd h (by decide)
  by_cases hK : c = 'K'
  · subst hK
    exact absurd h (by decide)
  by_cases hL : c = 'L'
  · subst hL
    exact absurd h (by decide)
  by_cases hM : c = 'M'
  · subst hM
    exact absurd h (by decide)
  by_cases hN : c = 'N'
  · subst hN
    exact absurd h (by decide)
  by_cases hO : c = 'O'
  · subst hO
    exact absurd h (by decide)
  by_cases hP : c = 'P'
  · subst hP
    exact absurd h (by decide)
  by_cases hQ : c = 'Q'
  · subst hQ
    exact absurd h (by decide)
  by_cases hR : c = 'R'
  · subst hR
    exact absurd h (by decide)
  by_cases hS : c = 'S'
  · subst hS
    exact absurd h (by decide)
  by_cases hT : c = 'T'
  · subst hT
    exact absurd h (by decide)
  by_cases hU : c = 'U'
  · subst hU
    exact absurd h (by decide)
  by_cases hV : c = 'V'
  · subst hV
    exact absurd h (by decide)
  by_cases hW : c = 'W'
  · subst hW
    exact absurd h (by decide)
  by_cases hX : c = 'X'
  · subst hX
    exact absurd h (by decide)
  by_cases hY : c = 'Y'
  · subst hY
    exact absurd h (by decide)
  by_cases hZ : c = 'Z'
  · subst hZ
    exact absurd h (by decide)
  unfold asciiLower at h
  rw [if_neg hA, if_neg hB, if_neg hC, if_neg hD, if_neg hE, if_neg hF, if_neg hG, if_neg hH, if_neg hI, if_neg hJ, if_neg hK, if_neg hL, if_neg hM, if_neg hN, if_neg hO, if_neg hP, if_neg hQ, if_neg hR, if_neg hS, if_neg hT, if_neg hU, if_neg hV, if_neg hW, if_neg hX, if_neg hY, if_neg hZ] at h
  exact h

theorem ciStarts_head_false (p0 : Char) (pat : List Char) (c : Char)
    (t : List Char) (h : asciiLower c ≠ p0) :
    ciStarts (p0 :: pat) (c :: t) = false := by
  unfold ciStarts asciiLowerL
  rw [List.length_cons, List.take_succ_cons, List.map_cons]
  show (((asciiLower c == p0)) && _) = false
  rw [beq_eq_false_iff_ne.mpr h]
  rfl

theorem metaMatchLen1_head_ne (c : Char) (t : List Char) (hc : c ≠ '<') :
    metaMatchLen1 (c :: t) = 0 := by
  unfold metaMatchLen1
  rw [show ("<meta".data : List Char) = '<' :: "meta".data from rfl,
    ciStarts_head_false _ _ _ _ (asciiLower_ne_lt c hc)]
  rfl

theorem metaMatchLen2_head_ne (c : Char) (t : List Char) (hc : c ≠ '<') :
    metaMatchLen2 (c :: t) = 0 := by
  unfold metaMatchLen2
  rw [show ("<meta".data : List Char) = '<' :: "meta".data from rfl,
    ciStarts_head_false _ _ _ _ (asciiLower_ne_lt c hc)]
  rfl

theorem reSubDelF_fuel (mL : List Char → Nat) :
    ∀ (n : Nat) (s : List Char) (f : Nat), s.length ≤ n → s.length ≤ f →
      reSubDelF mL f s = reSubDelF mL s.length s := by
  intro n
  induction n with
  | zero =>
    intro s f h1 _
    have : s = [] := List.length_eq_zero.mp (Nat.le_zero.mp h1)
    subst this
    cases f <;> rfl
  | succ n ih =>
    intro s f h1 h2
    cases s with
    | nil => cases f <;> rfl
    | cons c t =>
      cases f with
      | zero => simp at h2
      | succ f' =>
        simp only [List.length_cons] at h1 h2 ⊢
        show reSubDelF mL (f' + 1) (c :: t) = reSubDelF mL (t.length + 1) (c :: t)
        simp only [reSubDelF]
        by_cases hz : mL (c :: t) = 0
        · rw [if_pos hz, if_pos hz,
            ih t f' (by omega) (by omega), ih t t.length (by omega) (by omega)]
        · rw [if_neg hz, if_neg hz]
          have hlen : ((c :: t).drop (mL (c :: t))).length ≤ t.length := by
            simp only [List.length_drop, List.length_cons]
            omega
          rw [ih _ f' (by omega) (by omega), ih _ t.length (by omega) (by omega)]

theorem reSubDel_cons (mL : List Char → Nat) (c : Char) (t : List Char) :
    reSubDel mL (c :: t)
      = if mL (c :: t) = 0 then c :: reSubDel mL t
        else reSubDel mL ((c :: t).drop (mL (c :: t))) := by
  show reSubDelF mL (t.length + 1) (c :: t) = _
  simp only [reSubDelF]
  by_cases hz : mL (c :: t) = 0
  · rw [if_pos hz, if_pos hz]
    rfl
  · rw [if_neg hz, if_neg hz,
      reSubDelF_fuel mL t.length _ t.length
        (by simp only [List.length_drop, List.length_cons]; omega)
        (by simp only [List.length_drop, List.length_cons]; omega)]
    rfl

theorem reSubDel_append_lt_free (mL : List Char → Nat)
    (hm : ∀ (c : Char) (t : List Char), c ≠ '<' → mL (c :: t) = 0)
    (a : List Char) (ha : ∀ c ∈ a, c ≠ '<') (s : List Char) :
    reSubDel mL (a ++ s) = a ++ reSubDel mL s := by
  induction a with
  | nil => rfl
  | cons c a' ih =>
    rw [List.cons_append, reSubDel_cons,
      if_pos (hm c _ (ha c (List.mem_cons_self _ _))),
      ih (fun x hx => ha x (List.mem_cons_of_mem _ hx))]
    rfl

theorem reSubDel_id_lt_free (mL : List Char → Nat)
    (hm : ∀ (c : Char) (t : List Char), c ≠ '<' → mL (c :: t) = 0)
    (s : List Char) (hs : ∀ c ∈ s, c ≠ '<') :
    reSubDel mL s = s := by
  induction s with
  | nil => rfl
  | cons c t ih =>
    rw [reSubDel_cons, if_pos (hm c _ (hs c (List.mem_cons_self _ _))),
      ih (fun x hx => hs x (List.mem_cons_of_mem _ hx))]

theorem takeWhile_append_all (p : Char → Bool) (l₁ l₂ : List Char)
    (h : ∀ x ∈ l₁, p x = true) :
    (l₁ ++ l₂).takeWhile p = l₁ ++ l₂.takeWhile p := by
  induction l₁ with
  | nil => rfl
  | cons c t ih =>
    rw [List.cons_append, List.takeWhile_cons,
      if_pos (h c (List.mem_cons_self _ _)),
      ih (fun x hx => h x (List.mem_cons_of_mem _ hx)), List.cons_append]

theorem dropWhile_append_all (p : Char → Bool) (l₁ l₂ : List Char)
    (h : ∀ x ∈ l₁, p x = true) :
    (l₁ ++ l₂).dropWhile p = l₂.dropWhile p := by
  induction l₁ with
  | nil => rfl
  | cons c t ih =>
    rw [List.cons_append, List.dropWhile_cons,
      if_pos (h c (List.mem_cons_self _ _)),
      ih (fun x hx => h x (List.mem_cons_of_mem _ hx))]

theorem takeWhile_cons_neg (p : Char → Bool) (c : Char) (t : List Char)
    (h : p c = false) : (c :: t).takeWhile p = [] := by
  rw [List.takeWhile_cons, h]
  rfl

theorem dropWhile_cons_neg (p : Char → Bool) (c : Char) (t : List Char)
    (h : p c = false) : (c :: t).dropWhile p = c :: t := by
  rw [List.dropWhile_cons, h]
  rfl

theorem drop_takeWhile_len (p : Char → Bool) (l : List Char) :
    l.drop (l.takeWhile p).length = l.dropWhile p := by
  nth_rewrite 2 [← List.takeWhile_append_dropWhile (p := p) (l := l)]
  rw [List.drop_left]

theorem occursL_of_isPrefixOf (pat : List Char) (c : Char) (t : List Char)
    (h : pat.isPrefixOf (c :: t) = true) : occursL pat (c :: t) = true := by
  rw [occursL_cons, h]
  rfl

theorem isPrefixOf_self_append (pat t : List Char) :
    pat.isPrefixOf (pat ++ t) = true := by
  induction pat with
  | nil => simp [List.isPrefixOf]
  | cons c p ih =>
    show ((c == c) && _) = true
    simp [ih]

theorem occursL_true_of_isPrefixOf (pat s : List Char) (hp : pat ≠ [])
    (h : pat.isPrefixOf s = true) : occursL pat s = true := by
  cases s with
  | nil =>
    cases pat with
    | nil => exact absurd rfl hp
    | cons c p => simp [List.isPrefixOf] at h
  | cons c t =>
    rw [occursL_cons, h]
    rfl

theorem drop_append_len (l₁ l₂ : List Char) (k : Nat) :
    (l₁ ++ l₂).drop (l₁.length + k) = l₂.drop k := by
  induction l₁ with
  | nil => simp
  | cons c t ih =>
    rw [List.cons_append, List.length_cons,
      show t.length + 1 + k = (t.length + k) + 1 from by omega,
      List.drop_succ_cons]
    exact ih

theorem metaMatchLen1_tag (v b : List Char)
    (hv : ∀ c ∈ v, c ≠ '>' ∧ c ≠ '"') :
    metaMatchLen1 ("<meta".data
        ++ (" http-equiv=\"Content-Security-Policy\" content=\"".data
          ++ (v ++ ('"' :: '>' :: b))))
      = 54 + v.length + (b.takeWhile pySpace).length := by
  have h47 : (" http-equiv=\"Content-Security-Policy\" content=\"".data
      : List Char).length = 47 := rfl
  have hd : ("<meta".data
      ++ (" http-equiv=\"Content-Security-Policy\" content=\"".data
        ++ (v ++ ('"' :: '>' :: b)))).drop 5
      = " http-equiv=\"Content-Security-Policy\" content=\"".data
        ++ (v ++ ('"' :: '>' :: b)) := rfl
  have hu : (" http-equiv=\"Content-Security-Policy\" content=\"".data
      ++ (v ++ ('"' :: '>' :: b))).takeWhile (· ≠ '>')
      = " http-equiv=\"Content-Security-Policy\" content=\"".data
        ++ (v ++ ['"']) := by
    rw [takeWhile_append_all _ _ _ (by decide),
      takeWhile_append_all _ _ _ (fun x hx => by simpa using (hv x hx).1)]
    rfl
  have htail : (" http-equiv=\"Content-Security-Policy\" content=\"".data
      ++ (v ++ ['"'])).tail
      = "http-equiv=\"Content-Security-Policy\" content=\"".data
        ++ (v ++ ['"']) := rfl
  have hlow : asciiLowerL ("http-equiv=\"Content-Security-Policy\" content=\"".data
      ++ (v ++ ['"']))
      = ("http-equiv=\"content-security-policy\"".data ++ " content=\"".data)
        ++ asciiLowerL (v ++ ['"']) := by
    unfold asciiLowerL
    rw [List.map_append]
    rfl
  have hocc : ciOccurs "http-equiv=\"content-security-policy\"".data
      ((" http-equiv=\"Content-Security-Policy\" content=\"".data
        ++ (v ++ ('"' :: '>' :: b))).takeWhile (· ≠ '>')).tail = true := by
    rw [hu, htail]
    unfold ciOccurs
    rw [hlow, List.append_assoc]
    exact occursL_true_of_isPrefixOf _ _ (by decide) (isPrefixOf_self_append _ _)
  have hlt : ((" http-equiv=\"Content-Security-Policy\" content=\"".data
      ++ (v ++ ('"' :: '>' :: b))).takeWhile (· ≠ '>')).length
      < (" http-equiv=\"Content-Security-Policy\" content=\"".data
        ++ (v ++ ('"' :: '>' :: b))).length := by
    rw [hu]
    simp only [List.length_append, List.length_cons, List.length_nil]
    omega
  have hstart : ciStarts "<meta".data ("<meta".data
      ++ (" http-equiv=\"Content-Security-Policy\" content=\"".data
        ++ (v ++ ('"' :: '>' :: b)))) = true := rfl
  have hlen : (" http-equiv=\"Content-Security-Policy\" content=\"".data
      ++ (v ++ ['"'])).length = 48 + v.length := by
    simp only [List.length_append, List.length_cons, List.length_nil, h47]
    omega
  have hdrop2 : (" http-equiv=\"Content-Security-Policy\" content=\"".data
      ++ (v ++ ('"' :: '>' :: b))).drop (48 + v.length + 1) = b := by
    rw [show 48 + v.length + 1
        = (" http-equiv=\"Content-Security-Policy\" content=\"".data
            : List Char).length + (v.length + 2) from by rw [h47]; omega,
      drop_append_len, drop_append_len]
    rfl
  unfold metaMatchLen1
  rw [if_pos hstart, if_pos ⟨by rw [hd]; exact hocc, by rw [hd]; exact hlt⟩,
    hd, hu, hlen, hdrop2]
  omega

theorem mem_of_mem_dropWhile (p : Char → Bool) (l : List Char) (c : Char)
    (h : c ∈ l.dropWhile p) : c ∈ l := by
  induction l with
  | nil => exact h
  | cons a t ih =>
    rw [List.dropWhile_cons] at h
    split at h
    · exact List.mem_cons_of_mem _ (ih h)
    · exact h

theorem reSubDel_meta1_tag (v b : List Char)
    (hv : ∀ c ∈ v, c ≠ '>' ∧ c ≠ '"') (hb : ∀ c ∈ b, c ≠ '<') :
    reSubDel metaMatchLen1 ("<meta".data
        ++ (" http-equiv=\"Content-Security-Policy\" content=\"".data
          ++ (v ++ ('"' :: '>' :: b))))
      = b.dropWhile pySpace := by
  have h47 : (" http-equiv=\"Content-Security-Policy\" content=\"".data
      : List Char).length = 47 := rfl
  have h4 : ("meta".data : List Char).length = 4 := rfl
  have hT : "<meta".data
      ++ (" http-equiv=\"Content-Security-Policy\" content=\"".data
        ++ (v ++ ('"' :: '>' :: b)))
      = '<' :: ("meta".data
        ++ (" http-equiv=\"Content-Security-Policy\" content=\"".data
          ++ (v ++ ('"' :: '>' :: b)))) := rfl
  have htag := metaMatchLen1_tag v b hv
  rw [hT] at htag ⊢
  rw [reSubDel_cons, htag, if_neg (by omega)]
  have hdropN : ('<' :: ("meta".data
      ++ (" http-equiv=\"Content-Security-Policy\" content=\"".data
        ++ (v ++ ('"' :: '>' :: b))))).drop
          (54 + v.length + (b.takeWhile pySpace).length)
      = b.drop (b.takeWhile pySpace).length := by
    rw [show 54 + v.length + (b.takeWhile pySpace).length
        = (53 + v.length + (b.takeWhile pySpace).length) + 1 from by omega,
      List.drop_succ_cons,
      show 53 + v.length + (b.takeWhile pySpace).length
        = ("meta".data : List Char).length
          + (49 + v.length + (b.takeWhile pySpace).length) from by
            rw [h4]; omega,
      drop_append_len,
      show 49 + v.length + (b.takeWhile pySpace).length
        = (" http-equiv=\"Content-Security-Policy\" content=\"".data
            : List Char).length
          + (v.length + (2 + (b.takeWhile pySpace).length)) from by
            rw [h47]; omega,
      drop_append_len, drop_append_len,
      show 2 + (b.takeWhile pySpace).length
        = ((b.takeWhile pySpace).length + 1) + 1 from by omega,
      List.drop_succ_cons, List.drop_succ_cons]
  rw [hdropN, drop_takeWhile_len]
  exact reSubDel_id_lt_free _ metaMatchLen1_head_ne _
    (fun c hc => hb c (mem_of_mem_dropWhile _ _ _ hc))

theorem ciOccurs_meta_false (l : List Char) (hl : ∀ c ∈ l, c ≠ '<') :
    ciOccurs "<meta".data l = false := by
  unfold ciOccurs asciiLowerL
  induction l with
  | nil => rfl
  | cons c t ih =>
    rw [List.map_cons]
    show ("<meta".data.isPrefixOf (asciiLower c :: t.map asciiLower)
      || occursL "<meta".data (t.map asciiLower)) = false
    have hp : "<meta".data.isPrefixOf (asciiLower c :: t.map asciiLower) = false := by
      show (('<' == asciiLower c) && _) = false
      rw [beq_eq_false_iff_ne.mpr
        (fun h => asciiLower_ne_lt c (hl c (List.mem_cons_self _ _)) h.symm)]
      rfl
    rw [hp, ih (fun x hx => hl x (List.mem_cons_of_mem _ hx))]
    rfl

/-- C8 (amended): the CSP-removal passes delete every CSP `meta` tag of
the double-quoted form whose `content` value contains no `>` or `"`,
together with the whitespace after it; when the surrounding document text
contains no `<` at all, nothing else changes and the result consequently
holds no meta tag whatsoever.  (The C8 counterexample shows a
CSP-declaring tag with a `>` inside an attribute value surviving.) -/
theorem c8_csp_removal (a v b : List Char)
    (ha : ∀ c ∈ a, c ≠ '<') (hb : ∀ c ∈ b, c ≠ '<')
    (hv : ∀ c ∈ v, c ≠ '>' ∧ c ≠ '"') :
    cspStripL (a ++ ("<meta http-equiv=\"Content-Security-Policy\" content=\"".data
        ++ (v ++ "\">".data)) ++ b)
      = a ++ b.dropWhile pySpace
  ∧ ciOccurs "<meta".data (a ++ b.dropWhile pySpace) = false := by
  have hassoc : a ++ ("<meta http-equiv=\"Content-Security-Policy\" content=\"".data
        ++ (v ++ "\">".data)) ++ b
      = a ++ ("<meta".data
        ++ (" http-equiv=\"Content-Security-Policy\" content=\"".data
          ++ (v ++ ('"' :: '>' :: b)))) := by
    simp only [List.append_assoc]
    rfl
  have hfree : ∀ c ∈ a ++ b.dropWhile pySpace, c ≠ '<' := by
    intro c hc
    rcases List.mem_append.mp hc with h | h
    · exact ha c h
    · exact hb c (mem_of_mem_dropWhile _ _ _ h)
  constructor
  · rw [hassoc]
    unfold cspStripL
    rw [reSubDel_append_lt_free metaMatchLen1 metaMatchLen1_head_ne a ha,
      reSubDel_meta1_tag v b hv hb]
    exact reSubDel_id_lt_free _ metaMatchLen2_head_ne _ hfree
  · exact ciOccurs_meta_false _ hfree

theorem c8_csp_removal_witness :
    ((∀ c ∈ "Title: ".data, c ≠ '<')
      ∧ (∀ c ∈ "   tail text".data, c ≠ '<')
      ∧ (∀ c ∈ "default-src x".data, c ≠ '>' ∧ c ≠ '"'))
  ∧ (cspStripL ("Title: ".data
        ++ ("<meta http-equiv=\"Content-Security-Policy\" content=\"".data
          ++ ("default-src x".data ++ "\">".data))
        ++ "   tail text".data)
      = "Title: ".data ++ "   tail text".data.dropWhile pySpace
    ∧ ciOccurs "<meta".data
        ("Title: ".data ++ "   tail text".data.dropWhile pySpace) = false) :=
  ⟨⟨by decide, by decide, by decide⟩,
    c8_csp_removal "Title: ".data "default-src x".data "   tail text".data
      (by decide) (by decide) (by decide)⟩
